import Mathlib

/-!
Verification of the statistics core of `utils_stock.py`
(stock-analysis-portfolio).

The Python code operates on pandas Series / DataFrames of floats; the
embedding idealises floats as elements of a linear ordered field
(instantiated at `ℝ`, or kept generic when no `sqrt`/`log` is involved).
A pandas Series is a `List α`; a DataFrame of returns is a
`List (List α)` of rows (one row per period, one entry per asset).
All functions below are translated line by line from `utils_stock.py`;
the one definition derived from the specification text instead of the
source is marked `Modelled from the spec` in its doc comment.
-/

namespace StockAnalysis

variable {α : Type} [LinearOrderedField α]

/-- Pandas `Series.mean()`: sum divided by length. -/
def mean (xs : List α) : α := xs.sum / xs.length

/-- Sum of squared deviations from the mean, `Σ (x − mean)²` —
the numerator shared by every `Series.std(ddof=·)` call. -/
def sumSqDev (xs : List α) : α := (xs.map (fun x => (x - mean xs) ^ 2)).sum

/-- Pandas `Series.std(ddof)`: `sqrt(Σ (x − mean)² / (n − ddof))`.
`utils_stock.py` always calls it with `ddof=0` (population standard
deviation, divisor `n`). -/
noncomputable def stdDdof (xs : List ℝ) (ddof : ℕ) : ℝ :=
  Real.sqrt (sumSqDev xs / ((xs.length : ℝ) - (ddof : ℝ)))

/-- `Series.min()` of a nonempty series; `0` as a junk value on `[]`
(pandas would give `NaN` there, a case no caller reaches). -/
def listMin : List α → α
  | [] => 0
  | x :: xs => xs.foldl min x

/-- `Series.cummax()`: running maximum, inclusive of the current entry. -/
def cummax : List α → List α
  | [] => []
  | x :: xs => x :: (cummax xs).map (fun m => max x m)

/-- `Series.cumprod()`: running product, inclusive of the current entry. -/
def cumprod : List α → List α
  | [] => []
  | x :: xs => x :: (cumprod xs).map (fun m => x * m)

/-- Dot product of two equal-length vectors (`numpy` row · weights). -/
def dotList (xs ys : List α) : α := (List.zipWith (· * ·) xs ys).sum

/-- `returns @ w`: matrix–vector product, one dot product per period row. -/
def mat_vec (rows : List (List α)) (w : List α) : List α :=
  rows.map (fun row => dotList row w)

/-- `prices.pct_change()` with the undefined first row dropped
(`dropna=True`, the form every caller in the repository uses):
`r_t = p_t / p_{t-1} − 1`. -/
def pct_change (prices : List α) : List α :=
  List.zipWith (fun prev cur => cur / prev - 1) prices prices.tail

/-- `np.log(prices).diff()` with the undefined first row dropped:
`r_t = ln p_t − ln p_{t-1}`. -/
noncomputable def log_diff (prices : List ℝ) : List ℝ :=
  List.zipWith (fun prev cur => Real.log cur - Real.log prev) prices prices.tail

/-- `to_returns(prices, method, dropna=True)`: dispatch on the method
string, `ValueError` on anything other than "simple" or "log". -/
noncomputable def to_returns (prices : List ℝ) (method : String) : Except String (List ℝ) :=
  if method = "simple" then Except.ok (pct_change prices)
  else if method = "log" then Except.ok (log_diff prices)
  else Except.error "method must be either simple or log"

/-- `annualize_mean_vol(returns, periods_per_year)`, per column:
`(mean · periods_per_year, std(ddof=0) · √periods_per_year)`. -/
noncomputable def annualize_mean_vol (returns : List ℝ) (periods_per_year : ℕ) : ℝ × ℝ :=
  (mean returns * periods_per_year,
   stdDdof returns 0 * Real.sqrt periods_per_year)

/-- Denominator of the Series branch of `sharpe_ratio`:
`ex.std(ddof=0) * np.sqrt(periods_per_year)` for the excess series
`ex = returns − rf`. Note: no ε-smoothing term. -/
noncomputable def sharpe_ratio_denom (returns : List ℝ) (rf : ℝ) (periods_per_year : ℕ) : ℝ :=
  stdDdof (returns.map (fun r => r - rf)) 0 * Real.sqrt periods_per_year

/-- `sharpe_ratio(returns, rf, periods_per_year)` (Series branch):
`(ex.mean()*periods_per_year) / (ex.std(ddof=0)*np.sqrt(periods_per_year))`. -/
noncomputable def sharpe_ratio (returns : List ℝ) (rf : ℝ) (periods_per_year : ℕ) : ℝ :=
  (mean (returns.map (fun r => r - rf)) * periods_per_year) /
    sharpe_ratio_denom returns rf periods_per_year

/-- The drawdown series `prices / prices.cummax() - 1.0`. -/
def drawdowns (prices : List α) : List α :=
  List.zipWith (fun p m => p / m - 1) prices (cummax prices)

/-- `max_drawdown(prices)`: minimum of the drawdown series. -/
def max_drawdown (prices : List α) : α := listMin (drawdowns prices)

/-- The data sorted ascending, as pandas `quantile` sorts it. -/
def sortedList : List α → List α := List.insertionSort (· ≤ ·)

/-- The fractional index `q · (n − 1)` used by pandas
`Series.quantile(q)` with its default linear interpolation. -/
def quantilePos (xs : List α) (q : α) : α := q * ((xs.length : α) - 1)

/-- `Series.quantile(q)` (default linear interpolation): with
`pos = q·(n−1)`, `lo = ⌊pos⌋` and `γ = pos − lo`, the result is
`s[lo] + γ·(s[lo+1] − s[lo])` on the sorted data `s`, the interpolation
term vanishing at the top index. Needs `FloorRing` for `⌊·⌋`. -/
def quantile [FloorRing α] (xs : List α) (q : α) : α :=
  (sortedList xs).getD (⌊quantilePos xs q⌋).toNat 0 +
    (if (⌊quantilePos xs q⌋).toNat + 1 < xs.length then
      (quantilePos xs q - (⌊quantilePos xs q⌋ : α)) *
        ((sortedList xs).getD ((⌊quantilePos xs q⌋).toNat + 1) 0 -
          (sortedList xs).getD (⌊quantilePos xs q⌋).toNat 0)
    else 0)

/-- `cvar(returns, alpha)`: `q = returns.quantile(1 − alpha)`,
`tail = returns[returns <= q]`, result `−tail.mean()` (loss reported
positive). -/
def cvar [FloorRing α] (returns : List α) (alpha : α) : α :=
  -(mean (returns.filter (fun x => x ≤ quantile returns (1 - alpha))))

/-- The `RiskStats` dataclass of `utils_stock.py` (declared in the
source with six fields, `cagr` included; `portfolio_stats` does not
construct it). -/
structure RiskStats where
  ann_return : ℝ
  ann_vol : ℝ
  sharpe : ℝ
  cagr : ℝ
  max_drawdown : ℝ
  cvar_95 : ℝ

/-- `port_ret.mean() * periods_per_year` inside `portfolio_stats`. -/
noncomputable def portfolio_ann_ret (weights : List ℝ) (returns : List (List ℝ))
    (periods_per_year : ℕ) : ℝ :=
  mean (mat_vec returns weights) * periods_per_year

/-- `port_ret.std(ddof=0) * np.sqrt(periods_per_year)` inside
`portfolio_stats`. -/
noncomputable def portfolio_ann_vol (weights : List ℝ) (returns : List (List ℝ))
    (periods_per_year : ℕ) : ℝ :=
  stdDdof (mat_vec returns weights) 0 * Real.sqrt periods_per_year

/-- `portfolio_stats(weights, returns, rf, periods_per_year)`: the
returned dict, embedded as an association list in the source's key
order. The Sharpe entry divides `ann_ret - rf` (the `rf` argument taken
as passed, per period) by `ann_vol + 1e-12`; max drawdown is taken on
the cumulative-product price proxy, CVaR on the portfolio returns. -/
noncomputable def portfolio_stats (weights : List ℝ) (returns : List (List ℝ)) (rf : ℝ)
    (periods_per_year : ℕ) : List (String × ℝ) :=
  [("ann_return", portfolio_ann_ret weights returns periods_per_year),
   ("ann_vol", portfolio_ann_vol weights returns periods_per_year),
   ("sharpe",
     (portfolio_ann_ret weights returns periods_per_year - rf) /
       (portfolio_ann_vol weights returns periods_per_year + 1 / 10 ^ 12)),
   ("max_drawdown",
     max_drawdown (cumprod ((mat_vec returns weights).map (fun r => 1 + r)))),
   ("cvar_95", cvar (mat_vec returns weights) (95 / 100))]

/-- Modelled from the spec: step 3 of `PortfolioEvaluator.stats`,
"Sharpe = (annualizedReturn − rfAnnualized) / (annualizedVol + ε),
ε = 1e-12", with `rfAnnualized = rf × periodsPerYear` for a per-period
risk-free rate `rf`. Kept separate from `portfolio_stats` (which is the
code's formula) so the two can be compared. -/
noncomputable def portfolio_sharpe_spec (weights : List ℝ) (returns : List (List ℝ)) (rf : ℝ)
    (periods_per_year : ℕ) : ℝ :=
  (portfolio_ann_ret weights returns periods_per_year - rf * periods_per_year) /
    (portfolio_ann_vol weights returns periods_per_year + 1 / 10 ^ 12)

/-! Helper lemmas about shifting a series by a constant. -/

theorem sum_map_sub_const (xs : List α) (c : α) :
    (xs.map (fun x => x - c)).sum = xs.sum - xs.length * c := by
  induction xs with
  | nil => simp
  | cons x xs ih =>
    simp only [List.map_cons, List.sum_cons, List.length_cons, ih]
    push_cast
    ring

theorem mean_map_sub_const (xs : List α) (c : α) (hne : xs ≠ []) :
    mean (xs.map (fun x => x - c)) = mean xs - c := by
  have hlen : (xs.length : α) ≠ 0 := by
    exact_mod_cast Nat.cast_ne_zero.mpr (fun h => hne (List.length_eq_zero.mp h))
  unfold mean
  rw [List.length_map, sum_map_sub_const]
  field_simp

theorem sumSqDev_map_sub_const (xs : List α) (c : α) :
    sumSqDev (xs.map (fun x => x - c)) = sumSqDev xs := by
  rcases eq_or_ne xs [] with rfl | hne
  · simp [sumSqDev]
  · unfold sumSqDev
    rw [mean_map_sub_const xs c hne, List.map_map]
    congr 1
    apply List.map_congr_left
    intro x _
    simp only [Function.comp_apply]
    ring

theorem stdDdof_map_sub_const (xs : List ℝ) (c : ℝ) (ddof : ℕ) :
    stdDdof (xs.map (fun x => x - c)) ddof = stdDdof xs ddof := by
  unfold stdDdof
  rw [sumSqDev_map_sub_const, List.length_map]

/-- C4: `to_returns` fails with the invalid-method error exactly when the
requested method is neither "simple" nor "log"; in the embedding the
error branch returns the error value alone, producing no return table. -/
theorem to_returns_error_iff (prices : List ℝ) (method : String) :
    to_returns prices method = Except.error "method must be either simple or log"
      ↔ method ≠ "simple" ∧ method ≠ "log" := by
  unfold to_returns
  split_ifs with h1 h2
  · simp [h1]
  · simp [h1, h2]
  · simp [h1, h2]

/-- C5: on a non-empty return series, `annualize_mean_vol` returns the
mean scaled by `periods_per_year` and the population standard deviation
(`Σ (x − mean)²` divided by `n`, not `n − 1`, under the square root)
scaled by `√periods_per_year`. -/
theorem annualize_mean_vol_population (returns : List ℝ) (periods_per_year : ℕ)
    (hne : returns ≠ []) :
    annualize_mean_vol returns periods_per_year
      = (returns.sum / returns.length * periods_per_year,
         Real.sqrt ((returns.map
             (fun x => (x - returns.sum / returns.length) ^ 2)).sum
           / returns.length) * Real.sqrt periods_per_year) := by
  unfold annualize_mean_vol stdDdof sumSqDev mean
  norm_num

/-- Witness for C5 at a concrete series. -/
theorem annualize_mean_vol_population_witness :
    ([(1 : ℝ), 3] ≠ []) ∧
      annualize_mean_vol [(1 : ℝ), 3] 4
        = ([(1 : ℝ), 3].sum / ([(1 : ℝ), 3] : List ℝ).length * 4,
           Real.sqrt ((([(1 : ℝ), 3]).map
               (fun x => (x - ([(1 : ℝ), 3]).sum / (([(1 : ℝ), 3] : List ℝ)).length) ^ 2)).sum
             / (([(1 : ℝ), 3] : List ℝ)).length) * Real.sqrt 4) :=
  ⟨by simp, annualize_mean_vol_population [(1 : ℝ), 3] 4 (by simp)⟩

/-- C3 (counterexample): at a concrete input the record returned by
`portfolio_stats` has no "cagr" key at all. -/
theorem portfolio_stats_no_cagr :
    ¬ ("cagr" ∈ (portfolio_stats [1] [[1 / 100]] 0 252).map Prod.fst) := by
  simp [portfolio_stats]

/-- C3 (amended): for every input, the record returned by
`portfolio_stats` carries exactly the five statistics
ann_return, ann_vol, sharpe, max_drawdown, cvar_95 — CAGR is absent. -/
theorem portfolio_stats_keys (weights : List ℝ) (returns : List (List ℝ))
    (rf : ℝ) (periods_per_year : ℕ) :
    (portfolio_stats weights returns rf periods_per_year).map Prod.fst
      = ["ann_return", "ann_vol", "sharpe", "max_drawdown", "cvar_95"] := by
  simp [portfolio_stats]

/-! Helper lemmas about running maxima, minima and drawdowns. -/

theorem le_cummax (l : List α) : List.Forall₂ (· ≤ ·) l (cummax l) := by
  induction l with
  | nil => exact List.Forall₂.nil
  | cons x xs ih =>
    refine List.Forall₂.cons (le_refl x) ?_
    rw [List.forall₂_map_right_iff]
    exact List.Forall₂.imp (fun a b hab => le_trans hab (le_max_right x b)) ih

theorem cummax_pos (l : List α) (h : ∀ x ∈ l, 0 < x) :
    ∀ m ∈ cummax l, 0 < m := by
  induction l with
  | nil => simp [cummax]
  | cons x xs ih =>
    intro m hm
    simp only [cummax, List.mem_cons, List.mem_map] at hm
    rcases hm with rfl | ⟨b, _, rfl⟩
    · exact h _ (List.mem_cons_self _ _)
    · exact lt_of_lt_of_le (h _ (List.mem_cons_self _ _)) (le_max_left _ b)

theorem zip_div_sub_one_nonpos :
    ∀ {l l' : List α}, List.Forall₂ (· ≤ ·) l l' → (∀ m ∈ l', 0 < m) →
      ∀ d ∈ List.zipWith (fun p m => p / m - 1) l l', d ≤ 0 := by
  intro l l' h
  induction h with
  | nil => simp
  | @cons a b l₁ l₂ hab _ ih =>
    intro hpos d hd
    simp only [List.zipWith_cons_cons, List.mem_cons] at hd
    rcases hd with rfl | hd
    · have hb : 0 < b := hpos b (List.mem_cons_self b l₂)
      have : a / b ≤ 1 := (div_le_one hb).mpr hab
      linarith
    · exact ih (fun m hm => hpos m (List.mem_cons_of_mem b hm)) d hd

theorem foldl_min_le_init (l : List α) : ∀ a : α, l.foldl min a ≤ a := by
  induction l with
  | nil => intro a; exact le_refl a
  | cons b bs ih => intro a; exact le_trans (ih (min a b)) (min_le_left a b)

theorem listMin_nonpos (l : List α) (h : ∀ d ∈ l, d ≤ 0) : listMin l ≤ 0 := by
  cases l with
  | nil => simp [listMin]
  | cons x xs =>
    exact le_trans (foldl_min_le_init xs x) (h x (List.mem_cons_self x xs))

theorem cummax_of_sorted (l : List α) (h : List.Sorted (· ≤ ·) l) :
    cummax l = l := by
  induction l with
  | nil => rfl
  | cons x xs ih =>
    rw [List.sorted_cons] at h
    simp only [cummax]
    rw [ih h.2]
    have hmax : ∀ b ∈ xs, max x b = b := fun b hb => max_eq_right (h.1 b hb)
    rw [List.map_congr_left hmax]
    simp

theorem foldl_min_zeros : ∀ (xs : List α) (a : α), a = 0 → (∀ d ∈ xs, d = 0) →
    xs.foldl min a = 0 := by
  intro xs
  induction xs with
  | nil => intro a ha _; simpa using ha
  | cons b bs ih =>
    intro a ha h
    have hb : b = 0 := h b (List.mem_cons_self b bs)
    exact ih (min a b) (by rw [ha, hb, min_self])
      (fun d hd => h d (List.mem_cons_of_mem b hd))

theorem listMin_of_zeros (l : List α) (h : ∀ d ∈ l, d = 0) : listMin l = 0 := by
  cases l with
  | nil => rfl
  | cons x xs =>
    exact foldl_min_zeros xs x (h x (List.mem_cons_self x xs))
      (fun d hd => h d (List.mem_cons_of_mem x hd))

/-! Helper lemmas for the quantile and the mean of a bounded list. -/

theorem mean_le_of_forall_le (xs : List α) (b : α) (hne : xs ≠ [])
    (h : ∀ x ∈ xs, x ≤ b) : mean xs ≤ b := by
  have hlen : 0 < (xs.length : α) := by
    exact_mod_cast List.length_pos.mpr hne
  unfold mean
  rw [div_le_iff₀ hlen]
  calc xs.sum ≤ xs.length • b := List.sum_le_card_nsmul xs b h
    _ = b * xs.length := by rw [nsmul_eq_mul]; ring

theorem sorted_getD_le (s : List α) (hs : List.Sorted (· ≤ ·) s) (i j : ℕ)
    (hij : i ≤ j) (hj : j < s.length) : s.getD i 0 ≤ s.getD j 0 := by
  have hi : i < s.length := lt_of_le_of_lt hij hj
  rw [List.getD_eq_getElem s 0 hi, List.getD_eq_getElem s 0 hj]
  exact hs.rel_get_of_le (show (⟨i, hi⟩ : Fin s.length) ≤ ⟨j, hj⟩ from hij)

theorem exists_le_quantile [FloorRing α] (xs : List α) (q : α) (h0 : 0 ≤ q)
    (h1 : q ≤ 1) (hne : xs ≠ []) : ∃ x ∈ xs, x ≤ quantile xs q := by
  have hperm : (sortedList xs).Perm xs := List.perm_insertionSort (· ≤ ·) xs
  have hsorted : List.Sorted (· ≤ ·) (sortedList xs) :=
    List.sorted_insertionSort (· ≤ ·) xs
  have hlen : (sortedList xs).length = xs.length := hperm.length_eq
  have hxs_pos : 0 < xs.length := List.length_pos.mpr hne
  have hn1 : (0 : α) ≤ (xs.length : α) - 1 := by
    have : (1 : α) ≤ (xs.length : α) := by exact_mod_cast hxs_pos
    linarith
  have hpos0 : 0 ≤ quantilePos xs q := mul_nonneg h0 hn1
  have hposle : quantilePos xs q ≤ (xs.length : α) - 1 := by
    calc quantilePos xs q = q * ((xs.length : α) - 1) := rfl
      _ ≤ 1 * ((xs.length : α) - 1) := mul_le_mul_of_nonneg_right h1 hn1
      _ = (xs.length : α) - 1 := one_mul _
  have hflle : ⌊quantilePos xs q⌋ ≤ (xs.length : ℤ) - 1 := by
    have h' : ((xs.length : ℤ) - 1 : ℤ) = ⌊((xs.length : α) - 1)⌋ := by
      rw [show ((xs.length : α) - 1) = (((xs.length : ℤ) - 1 : ℤ) : α) by push_cast; ring,
        Int.floor_intCast]
    rw [h']
    exact Int.floor_le_floor hposle
  have hlo : (⌊quantilePos xs q⌋).toNat < xs.length := by omega
  refine ⟨(sortedList xs).getD 0 0, ?_, ?_⟩
  · have hs_ne : sortedList xs ≠ [] := by
      intro h
      rw [h] at hlen
      simp at hlen
      omega
    obtain ⟨y, t, hyt⟩ := List.exists_cons_of_ne_nil hs_ne
    rw [hyt]
    simp only [List.getD_cons_zero]
    exact hperm.subset (hyt ▸ List.mem_cons_self y t)
  · unfold quantile
    have hfirst : (sortedList xs).getD 0 0 ≤
        (sortedList xs).getD (⌊quantilePos xs q⌋).toNat 0 :=
      sorted_getD_le (sortedList xs) hsorted 0 _ (Nat.zero_le _)
        (by rw [hlen]; exact hlo)
    refine le_trans hfirst (le_add_of_nonneg_right ?_)
    split_ifs with hif
    · apply mul_nonneg
      · have := Int.floor_le (quantilePos xs q)
        linarith
      · have := sorted_getD_le (sortedList xs) hsorted (⌊quantilePos xs q⌋).toNat
          ((⌊quantilePos xs q⌋).toNat + 1) (Nat.le_succ _) (by rw [hlen]; exact hif)
        linarith
    · exact le_refl 0

/-! Helper lemmas for cumulative products and log telescoping. -/

theorem cumprod_ratio : ∀ (l : List α) (a : α), a ≠ 0 → (∀ x ∈ l, x ≠ 0) →
    (cumprod (List.zipWith (fun prev cur => cur / prev) (a :: l) l)).map
        (fun c => a * c) = l := by
  intro l
  induction l with
  | nil => intro a _ _; simp [cumprod]
  | cons b bs ih =>
    intro a ha hl
    have hb : b ≠ 0 := hl b (List.mem_cons_self b bs)
    simp only [List.zipWith_cons_cons, cumprod, List.map_cons, List.map_map]
    have hhead : a * (b / a) = b := by field_simp
    have hfun : ((fun c => a * c) ∘ fun m => b / a * m) = fun c => b * c := by
      funext m
      simp only [Function.comp_apply]
      field_simp
    rw [hhead, hfun, ih b hb (fun x hx => hl x (List.mem_cons_of_mem b hx))]

theorem log_diff_sum (a : ℝ) (l : List ℝ) :
    (log_diff (a :: l)).sum = Real.log (l.getLastD a) - Real.log a := by
  induction l generalizing a with
  | nil => simp [log_diff]
  | cons b bs ih =>
    simp only [log_diff, List.tail_cons, List.zipWith_cons_cons, List.sum_cons] at *
    rw [List.getLastD_cons, ih b]
    ring

theorem getLastD_pos (a : α) (l : List α) (h : ∀ x ∈ a :: l, 0 < x) :
    0 < l.getLastD a := by
  induction l generalizing a with
  | nil => exact h a (List.mem_cons_self a [])
  | cons b bs ih =>
    rw [List.getLastD_cons]
    exact ih b (fun x hx => h x (List.mem_cons_of_mem a hx))

/-- C10: whenever the population standard deviation of a return series is
zero, the denominator of `sharpe_ratio` is exactly zero — the per-series
Sharpe carries no 1e-12 smoothing term, so the division is unguarded when
volatility collapses. -/
theorem sharpe_ratio_denom_unguarded (returns : List ℝ) (rf : ℝ)
    (periods_per_year : ℕ) (h : stdDdof returns 0 = 0) :
    sharpe_ratio_denom returns rf periods_per_year = 0 ∧
      sharpe_ratio returns rf periods_per_year
        = mean (returns.map (fun r => r - rf)) * periods_per_year / 0 := by
  have hd : sharpe_ratio_denom returns rf periods_per_year = 0 := by
    unfold sharpe_ratio_denom
    rw [stdDdof_map_sub_const, h, zero_mul]
  refine ⟨hd, ?_⟩
  unfold sharpe_ratio
  rw [hd]

/-- Witness for C10 on a constant series. -/
theorem sharpe_ratio_denom_unguarded_witness :
    stdDdof [(1 : ℝ), 1] 0 = 0 ∧
      (sharpe_ratio_denom [(1 : ℝ), 1] (1 / 2) 4 = 0 ∧
        sharpe_ratio [(1 : ℝ), 1] (1 / 2) 4
          = mean ([(1 : ℝ), 1].map (fun r => r - 1 / 2)) * (4 : ℕ) / 0) := by
  have h : stdDdof [(1 : ℝ), 1] 0 = 0 := by
    unfold stdDdof sumSqDev mean
    norm_num
  exact ⟨h, sharpe_ratio_denom_unguarded [(1 : ℝ), 1] (1 / 2) 4 h⟩

/-- C1 (evaluation at the failing input): with one asset, constant
per-period return 1/100 over two periods, per-period risk-free rate
rf = 1/100 and 252 periods per year, the code's `portfolio_stats`
yields Sharpe = (2.52 − 0.01)/1e-12 = 2.51·10¹² — it subtracts the raw
per-period rate — while the spec formula
(annualizedReturn − rf·periodsPerYear)/(annualizedVol + 1e-12) yields 0. -/
theorem portfolio_stats_sharpe_per_period_rf :
    List.lookup "sharpe" (portfolio_stats [1] [[1 / 100], [1 / 100]] (1 / 100) 252)
        = some ((251 / 100) * 10 ^ 12) ∧
      portfolio_sharpe_spec [1] [[1 / 100], [1 / 100]] (1 / 100) 252 = 0 := by
  have hr : portfolio_ann_ret [1] [[1 / 100], [1 / 100]] 252 = 252 / 100 := by
    unfold portfolio_ann_ret mat_vec dotList mean
    norm_num
  have hv : portfolio_ann_vol [1] [[1 / 100], [1 / 100]] 252 = 0 := by
    unfold portfolio_ann_vol mat_vec dotList stdDdof sumSqDev mean
    norm_num
  constructor
  · simp only [portfolio_stats, List.lookup]
    norm_num [hr, hv]
    rfl
  · unfold portfolio_sharpe_spec
    rw [hr, hv]
    norm_num

/-- C6: on a non-empty series of positive prices, `max_drawdown` — the
minimum of `P_t / runningMax_t − 1` with the running maximum inclusive —
is never positive, and it is exactly 0 when the series is
non-decreasing. -/
theorem max_drawdown_nonpos_and_zero_on_monotone (prices : List α)
    (hne : prices ≠ []) (hpos : ∀ x ∈ prices, 0 < x) :
    max_drawdown prices ≤ 0 ∧
      (List.Sorted (· ≤ ·) prices → max_drawdown prices = 0) := by
  constructor
  · unfold max_drawdown
    apply listMin_nonpos
    unfold drawdowns
    exact zip_div_sub_one_nonpos (le_cummax prices) (cummax_pos prices hpos)
  · intro hsort
    unfold max_drawdown drawdowns
    rw [cummax_of_sorted prices hsort, List.zipWith_same]
    apply listMin_of_zeros
    intro d hd
    simp only [List.mem_map] at hd
    obtain ⟨p, hp, rfl⟩ := hd
    rw [div_self (ne_of_gt (hpos p hp))]
    ring

/-- Witness for C6 on a concrete positive, non-decreasing series. -/
theorem max_drawdown_nonpos_witness :
    (([1, 2, 3] : List ℚ) ≠ []) ∧ (∀ x ∈ ([1, 2, 3] : List ℚ), 0 < x) ∧
      (max_drawdown ([1, 2, 3] : List ℚ) ≤ 0 ∧
        (List.Sorted (· ≤ ·) ([1, 2, 3] : List ℚ) →
          max_drawdown ([1, 2, 3] : List ℚ) = 0)) :=
  ⟨by decide, by decide,
    max_drawdown_nonpos_and_zero_on_monotone ([1, 2, 3] : List ℚ)
      (by decide) (by decide)⟩

/-- C7: on a non-empty return series, the CVaR at level 0.95 — minus the
mean of the observations at or below the empirical 5% quantile — is at
least the quantile loss magnitude `−quantile(returns, 0.05)`. -/
theorem cvar_ge_neg_quantile [FloorRing α] (returns : List α)
    (hne : returns ≠ []) :
    -(quantile returns (5 / 100)) ≤ cvar returns (95 / 100) := by
  have h5 : (1 : α) - 95 / 100 = 5 / 100 := by norm_num
  unfold cvar
  rw [h5]
  apply neg_le_neg
  apply mean_le_of_forall_le
  · obtain ⟨x, hx, hxq⟩ :=
      exists_le_quantile returns (5 / 100) (by norm_num) (by norm_num) hne
    intro hempty
    have hmem : x ∈ returns.filter (fun y => y ≤ quantile returns (5 / 100)) :=
      List.mem_filter.mpr ⟨hx, by simpa using hxq⟩
    rw [hempty] at hmem
    exact absurd hmem (List.not_mem_nil x)
  · intro x hx
    have := List.mem_filter.mp hx
    simpa using this.2

/-- Witness for C7 on a concrete series. -/
theorem cvar_ge_neg_quantile_witness :
    (([1, -2, 3] : List ℚ) ≠ []) ∧
      -(quantile ([1, -2, 3] : List ℚ) (5 / 100))
        ≤ cvar ([1, -2, 3] : List ℚ) (95 / 100) :=
  ⟨by decide, cvar_ge_neg_quantile ([1, -2, 3] : List ℚ) (by decide)⟩

/-- C8: for a series of positive prices, the simple returns produced by
`to_returns` rebuild the original prices: the first price times the
cumulative product of `1 + r_t` reproduces every later price exactly. -/
theorem to_returns_simple_round_trip (p₀ : ℝ) (rest : List ℝ)
    (hpos : ∀ x ∈ p₀ :: rest, 0 < x) :
    ∃ rs, to_returns (p₀ :: rest) "simple" = Except.ok rs ∧
      (cumprod (rs.map (fun r => 1 + r))).map (fun c => p₀ * c) = rest := by
  refine ⟨pct_change (p₀ :: rest), by simp [to_returns], ?_⟩
  have hmap : (pct_change (p₀ :: rest)).map (fun r => 1 + r)
      = List.zipWith (fun prev cur => cur / prev) (p₀ :: rest) rest := by
    unfold pct_change
    rw [List.tail_cons, List.map_zipWith]
    congr 1
    funext prev cur
    ring
  rw [hmap]
  exact cumprod_ratio rest p₀ (ne_of_gt (hpos p₀ (List.mem_cons_self p₀ rest)))
    (fun x hx => ne_of_gt (hpos x (List.mem_cons_of_mem p₀ hx)))

/-- Witness for C8 on a concrete positive price series. -/
theorem to_returns_simple_round_trip_witness :
    (∀ x ∈ ((2 : ℝ) :: [4, 1]), 0 < x) ∧
      ∃ rs, to_returns ((2 : ℝ) :: [4, 1]) "simple" = Except.ok rs ∧
        (cumprod (rs.map (fun r => 1 + r))).map (fun c => (2 : ℝ) * c)
          = [4, 1] :=
  ⟨by norm_num, to_returns_simple_round_trip 2 [4, 1] (by norm_num)⟩

/-- C9: for a series of positive prices, the log returns produced by
`to_returns` sum to `ln(P_last / P_first)`. -/
theorem to_returns_log_telescoping (p₀ : ℝ) (rest : List ℝ)
    (hpos : ∀ x ∈ p₀ :: rest, 0 < x) :
    ∃ rs, to_returns (p₀ :: rest) "log" = Except.ok rs ∧
      rs.sum = Real.log ((p₀ :: rest).getLastD 0 / p₀) := by
  refine ⟨log_diff (p₀ :: rest), by simp [to_returns], ?_⟩
  rw [log_diff_sum, List.getLastD_cons]
  rw [Real.log_div (ne_of_gt (getLastD_pos p₀ rest hpos))
    (ne_of_gt (hpos p₀ (List.mem_cons_self p₀ rest)))]

/-- Witness for C9 on a concrete positive price series. -/
theorem to_returns_log_telescoping_witness :
    (∀ x ∈ ((2 : ℝ) :: [2, 2]), 0 < x) ∧
      ∃ rs, to_returns ((2 : ℝ) :: [2, 2]) "log" = Except.ok rs ∧
        rs.sum = Real.log (((2 : ℝ) :: [2, 2]).getLastD 0 / 2) :=
  ⟨by norm_num, to_returns_log_telescoping 2 [2, 2] (by norm_num)⟩

end StockAnalysis
